import Mathlib

/-!
Shallow embedding of the PipelineDB conversion layer of the hllpp library
(`pipeline.go`, current revision, together with the historical revision of
`AsPipeline` kept alongside it).  Byte buffers are `List Nat` whose entries
are byte values; unsigned Go arithmetic is `Nat` arithmetic with an explicit
`% 2 ^ w` wherever the Go code performs a narrowing cast.  The estimator
itself (its dense bit accessor, sparse decoder and hash decomposition) is an
external collaborator of this layer; the sequence of `(index, value)` pairs
its register iterator yields is therefore abstracted as a field of the
estimator model.
-/

namespace Hllpp

/-- Bits per register of the PipelineDB dense encoding (constant
`pipelineBitsPerRegister` in the source). -/
def pipelineBitsPerRegister : Nat := 6

/-- Maximum number of explicit registers before convertToExplicit falls back
to dense (constant `maxExplicitRegisters` in the source, value 600). -/
def maxExplicitRegisters : Nat := 600

/-- Tag byte of the dirty dense encoding, ASCII code of 'd'. -/
def PipelineDenseDirty : Nat := 100

/-- Tag byte of the clean dense encoding, ASCII code of 'D'. -/
def PipelineDenseClean : Nat := 68

/-- Tag byte of the dirty explicit encoding, ASCII code of 'e'. -/
def PipelineExplicitDirty : Nat := 101

/-- Tag byte of the clean explicit encoding, ASCII code of 'E'. -/
def PipelineExplicitClean : Nat := 69

/-- Model of the estimator (`HLLPP` struct) as seen by the pipeline
conversion layer.  `card` is the value `h.Count()` returns, `p` the
precision field `h.p` (a `uint8`), `m` the register count `h.m` (equal to
`2 ^ p` for every estimator the library constructs, and at most `2 ^ 18`,
so the `uint32` arithmetic of the source never wraps), `sparse` the
representation flag `h.sparse`, `sparseLength` the field `h.sparseLength`
(used only by the historical revision), and `regs` the finite sequence of
`(index, value)` pairs the register iterator `newRegIterator(h)` yields;
the iterator's leaves (`getRegister`, `sparseReader`, `decodeHash`) live in
other files of the repository, so that sequence is taken as abstract
estimator state. -/
structure HLLPP where
  card : Nat
  p : Nat
  m : Nat
  sparse : Bool
  sparseLength : Nat
  regs : List (Nat × Nat)
  deriving Repr, DecidableEq

/-- Configuration surface of the conversion: the source's feature flags
`alwaysWriteDense` (constant, `false` in the current revision) and
`WriteDirtyEncoding` (package variable, default `false`), and the explicit
overflow threshold `maxExplicitRegisters` (constant 600). -/
structure Config where
  alwaysWriteDense : Bool
  writeDirtyEncoding : Bool
  maxExplicitRegisters : Nat
  deriving Repr, DecidableEq

/-- Little-endian byte serialization of `x` into `k` bytes, as
`binary.Write(w, binary.LittleEndian, x)` emits for a `k`-byte unsigned
integer field. -/
def leBytes : Nat → Nat → List Nat
  | 0, _ => []
  | k + 1, x => x % 256 :: leBytes k (x / 256)

/-- Byte sequence `binary.Write` emits for the padded `pipelineHLL` struct:
1 tag byte, 3 padding bytes, 8-byte little-endian `Card`, 1 byte `P`,
3 padding bytes, 4-byte little-endian `Mlen`. -/
def pipelinePreamble (enc card p mlen : Nat) : List Nat :=
  enc % 256 :: 0 :: 0 :: 0 ::
    (leBytes 8 card ++ p % 256 :: 0 :: 0 :: 0 :: leBytes 4 mlen)

/-- Constant `hllRegisterMax` of the source: `(1 << pipelineBitsPerRegister) - 1`. -/
def hllRegisterMax : Nat := (1 <<< pipelineBitsPerRegister) - 1

/-- Bitwise complement on `uint32`, the Go `^` operator on a `uint32` operand. -/
def notU32 (x : Nat) : Nat := (2 ^ 32 - 1) ^^^ x

/-- Translation of `setDensePipelineRegister(_p, regnum, val)`: the straight
port of the `HLL_DENSE_SET_REGISTER` macro.  Each `uint8` store masks its
`uint32` operand with `% 256`, exactly where the Go code casts with
`uint8(...)`. -/
def setDensePipelineRegister (_p : List Nat) (regnum : Nat) (val : Nat) : List Nat :=
  let _byte := regnum * pipelineBitsPerRegister / 8
  let _fb := regnum * pipelineBitsPerRegister &&& 7
  let _fb8 := 8 - _fb
  let _v := val
  let p1 := _p.set _byte
    ((_p.getD _byte 0 &&& notU32 (hllRegisterMax <<< _fb) % 256) ||| _v <<< _fb % 256)
  p1.set (_byte + 1)
    ((p1.getD (_byte + 1) 0 &&& notU32 (hllRegisterMax >>> _fb8) % 256) ||| _v >>> _fb8 % 256)

/-- Dense register payload: the buffer `data := make([]byte, mlen)` after the
register loop of `convertToDense` has stored every pair the iterator yields. -/
def densePayload (mlen : Nat) (regs : List (Nat × Nat)) : List Nat :=
  regs.foldl (fun d rv => setDensePipelineRegister d rv.1 rv.2) (List.replicate mlen 0)

/-- Modelled from the spec: `h.flushTmpSet()` lives in the sparse-encoding
file of the repository, which is not part of this layer's sources; per the
spec the conversion call is a pure function of the estimator's state at call
time, so the flush is modelled as preserving the estimator model. -/
def flushTmpSet (h : HLLPP) : HLLPP := h

/-- Register-accumulation loop of `convertToExplicit`: append each yielded
pair and, immediately after each append, fall back (result `none`) as soon
as the accumulated count reaches `maxR`. -/
def collectExplicit (maxR : Nat) : List (Nat × Nat) → List (Nat × Nat) →
    Option (List (Nat × Nat))
  | [], acc => some acc
  | rv :: rest, acc =>
    let acc2 := acc ++ [rv]
    if maxR ≤ acc2.length then none else collectExplicit maxR rest acc2

/-- Modelled from the spec: `sort.Sort(registers)` uses the ordering of
`RegisterSlice`, declared in another file of the repository; per the spec it
sorts ascending by register index. -/
def sortRegisters (l : List (Nat × Nat)) : List (Nat × Nat) :=
  List.insertionSort (fun a b => a.1 ≤ b.1) l

/-- Packed explicit word `uint32(reg<<8) | uint32(val&0xff)`; the shift is
`uint32` arithmetic, hence the `% 2 ^ 32`. -/
def packExplicitWord (reg val : Nat) : Nat :=
  reg <<< 8 % 2 ^ 32 ||| val &&& 255

/-- Explicit register buffer: one 4-byte little-endian packed word per
register, in list order. -/
def explicitPayload (l : List (Nat × Nat)) : List Nat :=
  l.flatMap fun rv => leBytes 4 (packExplicitWord rv.1 rv.2)

/-- Translation of `convertToDense` (current revision), with the estimator
state threaded explicitly: the Go method mutates nothing on this path, so
the input state is returned unchanged next to `ret.Bytes()`.  The in-memory
`bytes.Buffer` sink accepts every write, so the error result is always nil
and does not appear here; the write-failure model below keeps the error
plumbing. -/
def convertToDenseSt (h : HLLPP) (cfg : Config) : HLLPP × List Nat :=
  let mlen := 1 + h.m * pipelineBitsPerRegister / 8
  let enc := if cfg.writeDirtyEncoding then PipelineDenseDirty else PipelineDenseClean
  (h, pipelinePreamble enc h.card h.p mlen ++ densePayload mlen h.regs)

/-- Translation of `convertToExplicit` (current revision), with the
estimator state threaded explicitly: flush the temporary set when sparse,
accumulate iterator pairs with the overflow check, fall back to
`convertToDense` on overflow, otherwise sort, pack each register into a
4-byte little-endian word, and prepend the preamble whose `Mlen` is
`uint32(regBuf.Len())`. -/
def convertToExplicitSt (h : HLLPP) (cfg : Config) : HLLPP × List Nat :=
  let h1 := if h.sparse then flushTmpSet h else h
  match collectExplicit cfg.maxExplicitRegisters h1.regs [] with
  | none => convertToDenseSt h1 cfg
  | some registers =>
    let regBuf := explicitPayload (sortRegisters registers)
    let enc := if cfg.writeDirtyEncoding then PipelineExplicitDirty else PipelineExplicitClean
    (h1, pipelinePreamble enc h1.card h1.p (regBuf.length % 2 ^ 32) ++ regBuf)

/-- Translation of `AsPipeline` (current revision): dense when the source is
dense or the always-dense flag is set, explicit otherwise. -/
def AsPipelineSt (h : HLLPP) (cfg : Config) : HLLPP × List Nat :=
  if !h.sparse || cfg.alwaysWriteDense then convertToDenseSt h cfg
  else convertToExplicitSt h cfg

/-- Translation of the historical revision of `AsPipeline` (the monolithic
version kept next to the current one), with its compile-time feature flags
`alwaysWriteDense` and `writeDirtyEncoding` as parameters.  On its explicit
branch the clean tag constant is `PipelineDenseClean`, exactly as in that
revision's source, and `Mlen` is `4 * h.sparseLength`, computed before the
register loop. -/
def asPipelineHist (h : HLLPP) (alwaysDense writeDirty : Bool) : List Nat :=
  let dense := !h.sparse || alwaysDense
  if dense then
    let enc := if writeDirty then PipelineDenseDirty else PipelineDenseClean
    let mlen := 1 + h.m * pipelineBitsPerRegister / 8
    pipelinePreamble enc h.card h.p mlen ++ densePayload mlen h.regs
  else
    let enc := if writeDirty then PipelineExplicitDirty else PipelineDenseClean
    let mlen := 4 * h.sparseLength
    pipelinePreamble enc h.card h.p mlen ++ explicitPayload h.regs

/-- Extractor inverse to the dense packing: read back the 6-bit field of
register `regnum` from the two bytes it spans, least-significant-bit first. -/
def getDensePipelineRegister (p : List Nat) (regnum : Nat) : Nat :=
  let _byte := regnum * pipelineBitsPerRegister / 8
  let _fb := regnum * pipelineBitsPerRegister &&& 7
  ((p.getD _byte 0 % 256) >>> _fb |||
    (p.getD (_byte + 1) 0 % 256) <<< (8 - _fb)) &&& hllRegisterMax

example : getDensePipelineRegister (densePayload 13 [(3, 5), (10, 12)]) 3 = 5 := by decide

example : getDensePipelineRegister (densePayload 13 [(3, 5), (10, 12)]) 10 = 12 := by decide

example : getDensePipelineRegister (densePayload 13 [(3, 5), (10, 12)]) 4 = 0 := by decide

/-! Helper lemmas on lists and bits. -/

theorem getD_set_nat (l : List Nat) (k j x d : Nat) :
    (l.set k x).getD j d = if k = j ∧ k < l.length then x else l.getD j d := by
  simp only [List.getD_eq_getElem?_getD, List.getElem?_set]
  by_cases h1 : k = j
  · subst h1
    by_cases h2 : k < l.length
    · simp [h2]
    · simp [h2, List.getElem?_eq_none (Nat.le_of_not_lt h2)]
  · simp [h1]

theorem testBit_seven (i : Nat) : Nat.testBit 7 i = decide (i < 3) := by
  match i with
  | 0 => decide
  | 1 => decide
  | 2 => decide
  | i + 3 =>
    have h : (7 : Nat) < 2 ^ (i + 3) := by
      have h1 : (2 : Nat) ^ 3 ≤ 2 ^ (i + 3) := Nat.pow_le_pow_right (by norm_num) (by omega)
      omega
    simp [Nat.testBit_lt_two_pow h]

theorem and_seven (x : Nat) : x &&& 7 = x % 8 := by
  apply Nat.eq_of_testBit_eq
  intro i
  rw [show (8 : Nat) = 2 ^ 3 from rfl, Nat.testBit_mod_two_pow, Nat.testBit_and, testBit_seven,
    Bool.and_comm]

theorem leBytes_length (k x : Nat) : (leBytes k x).length = k := by
  induction k generalizing x with
  | zero => rfl
  | succ k ih => simp [leBytes, ih]

theorem pipelinePreamble_length (enc card p mlen : Nat) :
    (pipelinePreamble enc card p mlen).length = 20 := by
  simp [pipelinePreamble, leBytes_length]

theorem setDense_length (p : List Nat) (r v : Nat) :
    (setDensePipelineRegister p r v).length = p.length := by
  simp [setDensePipelineRegister]

/-- Bit `i` of the payload bitstream: bit `i % 8` of byte `i / 8`. -/
def bufBit (p : List Nat) (i : Nat) : Bool := (p.getD (i / 8) 0).testBit (i % 8)

/-- Byte-level description of the two stores `setDensePipelineRegister`
performs. -/
theorem setDense_getD (p : List Nat) (r v j : Nat) :
    (setDensePipelineRegister p r v).getD j 0 =
      if r * 6 / 8 + 1 = j ∧ r * 6 / 8 + 1 < p.length then
        (p.getD (r * 6 / 8 + 1) 0 &&& notU32 (hllRegisterMax >>> (8 - r * 6 % 8)) % 256) |||
          (v >>> (8 - r * 6 % 8)) % 256
      else if r * 6 / 8 = j ∧ r * 6 / 8 < p.length then
        (p.getD (r * 6 / 8) 0 &&& notU32 (hllRegisterMax <<< (r * 6 % 8)) % 256) |||
          (v <<< (r * 6 % 8)) % 256
      else p.getD j 0 := by
  simp only [setDensePipelineRegister, pipelineBitsPerRegister, and_seven]
  simp only [getD_set_nat, List.length_set]
  have hne : ¬(r * 6 / 8 = r * 6 / 8 + 1) := by omega
  simp only [hne, false_and, if_false]

theorem testBit_notU32 (x i : Nat) (h : i < 32) : (notU32 x).testBit i = !x.testBit i := by
  rw [notU32, Nat.testBit_xor, Nat.testBit_two_pow_sub_one]
  simp [h]

theorem testBit_hllRegisterMax (i : Nat) : hllRegisterMax.testBit i = decide (i < 6) := by
  rw [show hllRegisterMax = 2 ^ 6 - 1 from rfl, Nat.testBit_two_pow_sub_one]

theorem testBit_mod256 (x i : Nat) : (x % 256).testBit i = (decide (i < 8) && x.testBit i) := by
  rw [show (256 : Nat) = 2 ^ 8 from rfl, Nat.testBit_mod_two_pow]

theorem testBit_maskShl (fb t : Nat) (ht8 : t < 8) :
    (notU32 (hllRegisterMax <<< fb) % 256).testBit t =
      !(decide (fb ≤ t) && decide (t - fb < 6)) := by
  rw [testBit_mod256, testBit_notU32 _ _ (by omega), Nat.testBit_shiftLeft,
    testBit_hllRegisterMax]
  simp [ht8]

theorem testBit_maskShr (fb8 t : Nat) (ht8 : t < 8) :
    (notU32 (hllRegisterMax >>> fb8) % 256).testBit t = !decide (fb8 + t < 6) := by
  rw [testBit_mod256, testBit_notU32 _ _ (by omega), Nat.testBit_shiftRight,
    testBit_hllRegisterMax]
  simp [ht8]

theorem testBit_shlMod (v fb t : Nat) (ht8 : t < 8) :
    ((v <<< fb) % 256).testBit t = (decide (fb ≤ t) && v.testBit (t - fb)) := by
  rw [testBit_mod256, Nat.testBit_shiftLeft]
  simp [ht8]

theorem testBit_shrMod (v fb8 t : Nat) (ht8 : t < 8) :
    ((v >>> fb8) % 256).testBit t = v.testBit (fb8 + t) := by
  rw [testBit_mod256, Nat.testBit_shiftRight]
  simp [ht8]

theorem testBit_of_lt_64 (v j : Nat) (hv : v < 64) (hj : 6 ≤ j) : v.testBit j = false := by
  have h1 : (2 : Nat) ^ 6 ≤ 2 ^ j := Nat.pow_le_pow_right (by norm_num) hj
  exact Nat.testBit_lt_two_pow (by omega)

/-- Writing register `r` sets the six bitstream bits of its field to the six
bits of the value. -/
theorem bufBit_setDense_self (p : List Nat) (r v j : Nat) (hj : j < 6)
    (hb : r * 6 / 8 + 1 < p.length) :
    bufBit (setDensePipelineRegister p r v) (r * 6 + j) = v.testBit j := by
  have hdm := Nat.div_add_mod (r * 6) 8
  have hfb : r * 6 % 8 < 8 := Nat.mod_lt _ (by norm_num)
  by_cases hcase : r * 6 % 8 + j < 8
  · have hdiv : (r * 6 + j) / 8 = r * 6 / 8 := by omega
    have hmod : (r * 6 + j) % 8 = r * 6 % 8 + j := by omega
    rw [bufBit, hdiv, hmod, setDense_getD]
    rw [if_neg (by omega), if_pos ⟨rfl, by omega⟩]
    rw [Nat.testBit_or, Nat.testBit_and, testBit_maskShl _ _ (by omega),
      testBit_shlMod _ _ _ (by omega)]
    have e : r * 6 % 8 + j - r * 6 % 8 = j := by omega
    rw [e, decide_eq_true (Nat.le_add_right (r * 6 % 8) j), decide_eq_true hj]
    simp
  · have hdiv : (r * 6 + j) / 8 = r * 6 / 8 + 1 := by omega
    have hmod : (r * 6 + j) % 8 = r * 6 % 8 + j - 8 := by omega
    rw [bufBit, hdiv, hmod, setDense_getD]
    rw [if_pos ⟨rfl, hb⟩]
    rw [Nat.testBit_or, Nat.testBit_and, testBit_maskShr _ _ (by omega),
      testBit_shrMod _ _ _ (by omega)]
    have e : 8 - r * 6 % 8 + (r * 6 % 8 + j - 8) = j := by omega
    rw [e, decide_eq_true hj]
    simp

/-- Writing register `r` leaves every bitstream bit outside its six-bit field
unchanged. -/
theorem bufBit_setDense_ne (p : List Nat) (r v i : Nat) (hv : v < 64)
    (hi : i < r * 6 ∨ r * 6 + 6 ≤ i) :
    bufBit (setDensePipelineRegister p r v) i = bufBit p i := by
  have hdm := Nat.div_add_mod (r * 6) 8
  have hfb : r * 6 % 8 < 8 := Nat.mod_lt _ (by norm_num)
  have hdm2 := Nat.div_add_mod i 8
  have him : i % 8 < 8 := Nat.mod_lt _ (by norm_num)
  rw [bufBit, bufBit, setDense_getD]
  by_cases hc1 : r * 6 / 8 + 1 = i / 8 ∧ r * 6 / 8 + 1 < p.length
  · rw [if_pos hc1, hc1.1]
    rw [Nat.testBit_or, Nat.testBit_and, testBit_maskShr _ _ him,
      testBit_shrMod _ _ _ him]
    have hout : 6 ≤ 8 - r * 6 % 8 + i % 8 := by omega
    rw [testBit_of_lt_64 _ _ hv hout,
      decide_eq_false (show ¬(8 - r * 6 % 8 + i % 8 < 6) by omega)]
    simp
  · rw [if_neg hc1]
    by_cases hc2 : r * 6 / 8 = i / 8 ∧ r * 6 / 8 < p.length
    · rw [if_pos hc2, hc2.1]
      rw [Nat.testBit_or, Nat.testBit_and, testBit_maskShl _ _ him,
        testBit_shlMod _ _ _ him]
      by_cases hle : r * 6 % 8 ≤ i % 8
      · have hout : 6 ≤ i % 8 - r * 6 % 8 := by omega
        rw [testBit_of_lt_64 _ _ hv hout, decide_eq_true hle,
          decide_eq_false (show ¬(i % 8 - r * 6 % 8 < 6) by omega)]
        simp
      · rw [decide_eq_false hle]
        simp
    · rw [if_neg hc2]

/-- Reading register `r` back through the extractor sees exactly the six
bitstream bits of its field. -/
theorem getDense_testBit (p : List Nat) (r j : Nat) :
    (getDensePipelineRegister p r).testBit j = (decide (j < 6) && bufBit p (r * 6 + j)) := by
  have hdm := Nat.div_add_mod (r * 6) 8
  have hfb : r * 6 % 8 < 8 := Nat.mod_lt _ (by norm_num)
  simp only [getDensePipelineRegister, pipelineBitsPerRegister, and_seven]
  rw [Nat.testBit_and, testBit_hllRegisterMax, Nat.testBit_or, Nat.testBit_shiftRight,
    Nat.testBit_shiftLeft, testBit_mod256, testBit_mod256]
  by_cases hj : j < 6
  · by_cases hcase : r * 6 % 8 + j < 8
    · have hdiv : (r * 6 + j) / 8 = r * 6 / 8 := by omega
      have hmod : (r * 6 + j) % 8 = r * 6 % 8 + j := by omega
      rw [bufBit, hdiv, hmod]
      rw [decide_eq_true hj, decide_eq_true (show r * 6 % 8 + j < 8 by omega),
        decide_eq_false (show ¬(j ≥ 8 - r * 6 % 8) by omega)]
      simp
    · have hdiv : (r * 6 + j) / 8 = r * 6 / 8 + 1 := by omega
      have hmod : (r * 6 + j) % 8 = r * 6 % 8 + j - 8 := by omega
      rw [bufBit, hdiv, hmod]
      have e : j - (8 - r * 6 % 8) = r * 6 % 8 + j - 8 := by omega
      rw [e, decide_eq_true hj, decide_eq_false (show ¬(r * 6 % 8 + j < 8) by omega),
        decide_eq_true (show j ≥ 8 - r * 6 % 8 by omega),
        decide_eq_true (show r * 6 % 8 + j - 8 < 8 by omega)]
      simp
  · rw [decide_eq_false hj]
    simp

/-- Folding further register writes over the buffer leaves bits outside all
their fields unchanged. -/
theorem bufBit_foldl_frame (L : List (Nat × Nat)) (p : List Nat) (i : Nat)
    (hv : ∀ rv ∈ L, rv.2 < 64)
    (hout : ∀ rv ∈ L, i < rv.1 * 6 ∨ rv.1 * 6 + 6 ≤ i) :
    bufBit (L.foldl (fun d rv => setDensePipelineRegister d rv.1 rv.2) p) i = bufBit p i := by
  induction L generalizing p with
  | nil => rfl
  | cons a t ih =>
    rw [List.foldl_cons]
    rw [ih _ (fun rv hm => hv rv (List.mem_cons_of_mem a hm))
      (fun rv hm => hout rv (List.mem_cons_of_mem a hm))]
    exact bufBit_setDense_ne p a.1 a.2 i (hv a (List.mem_cons_self a t))
      (hout a (List.mem_cons_self a t))

theorem foldl_setDense_length (L : List (Nat × Nat)) (p : List Nat) :
    (L.foldl (fun d rv => setDensePipelineRegister d rv.1 rv.2) p).length = p.length := by
  induction L generalizing p with
  | nil => rfl
  | cons a t ih => rw [List.foldl_cons, ih, setDense_length]

/-- After folding all writes of a duplicate-free register list, the bits of
the field of each listed register hold that register's value. -/
theorem bufBit_foldl_mem (L : List (Nat × Nat)) (p : List Nat) (r v j : Nat)
    (hv : ∀ rv ∈ L, rv.2 < 64) (hnd : (L.map Prod.fst).Nodup)
    (hb : ∀ rv ∈ L, rv.1 * 6 / 8 + 1 < p.length)
    (hmem : (r, v) ∈ L) (hj : j < 6) :
    bufBit (L.foldl (fun d rv => setDensePipelineRegister d rv.1 rv.2) p) (r * 6 + j) =
      v.testBit j := by
  induction L generalizing p with
  | nil => cases hmem
  | cons a t ih =>
    rw [List.foldl_cons]
    rcases List.mem_cons.mp hmem with heq | hmemt
    · subst heq
      have hnotin : ∀ rv ∈ t, rv.1 ≠ r := by
        intro rv hm
        have h1 : r ∉ t.map Prod.fst := by
          simpa using (List.nodup_cons.mp hnd).1
        intro hcon
        exact h1 (hcon ▸ List.mem_map_of_mem Prod.fst hm)
      rw [bufBit_foldl_frame t _ _ (fun rv hm => hv rv (List.mem_cons_of_mem _ hm))
        (fun rv hm => by
          rcases Nat.lt_or_ge rv.1 r with hlt | hge
          · right
            omega
          · left
            have : rv.1 ≠ r := hnotin rv hm
            omega)]
      exact bufBit_setDense_self p r v j hj (hb (r, v) (List.mem_cons_self _ t))
    · rw [ih _ (fun rv hm => hv rv (List.mem_cons_of_mem a hm))
        (List.Nodup.of_cons (by simpa using hnd))
        (fun rv hm => by rw [setDense_length]; exact hb rv (List.mem_cons_of_mem a hm)) hmemt]

/-- Index bound: for a register count that is a positive power of two, both
bytes touched by a register write lie inside the `1 + m*6/8`-byte buffer. -/
theorem dense_index_bound (m t r : Nat) (hm : m = 2 ^ t) (ht : 1 ≤ t) (hr : r < m) :
    r * 6 / 8 + 1 < 1 + m * 6 / 8 := by
  obtain ⟨k, hk⟩ : 2 ∣ m := hm ▸ dvd_pow_self 2 (by omega)
  omega

theorem bufBit_replicate_zero (mlen i : Nat) : bufBit (List.replicate mlen 0) i = false := by
  rw [bufBit]
  rcases Nat.lt_or_ge (i / 8) mlen with hlt | hge
  · rw [List.getD_eq_getElem?_getD, List.getElem?_replicate]
    simp [hlt]
  · rw [List.getD_eq_getElem?_getD, List.getElem?_eq_none (by simpa using hge)]
    simp

theorem convertToDenseSt_snd (h : HLLPP) (cfg : Config) :
    (convertToDenseSt h cfg).2 =
      pipelinePreamble
          (if cfg.writeDirtyEncoding then PipelineDenseDirty else PipelineDenseClean)
          h.card h.p (1 + h.m * pipelineBitsPerRegister / 8) ++
        densePayload (1 + h.m * pipelineBitsPerRegister / 8) h.regs := rfl

/-- Concrete estimator used by the witnesses: precision 4, sixteen registers,
sparse-backed, registers 3 and 10 set to 5 and 12. -/
def hWit : HLLPP :=
  { card := 2, p := 4, m := 16, sparse := true, sparseLength := 2,
    regs := [(3, 5), (10, 12)] }

/-- Concrete configuration used by the witnesses: the current revision's
shipped values. -/
def cfgWit : Config :=
  { alwaysWriteDense := false, writeDirtyEncoding := false, maxExplicitRegisters := 600 }

/-- C1: for every estimator with `m = 2 ^ t` registers converted under Dense
encoding, inverse-unpacking the dense payload that follows the 20-byte
preamble recovers every register value the iterator yielded: if the iterator
yields `(r, v)` with `r < m` and `v < 64`, reading the 6-bit field of `r`
back from the payload gives `v`. -/
theorem dense_payload_roundtrip (h : HLLPP) (cfg : Config) (t r v : Nat)
    (hm : h.m = 2 ^ t) (ht : 1 ≤ t)
    (hreg : ∀ rv ∈ h.regs, rv.1 < h.m ∧ rv.2 < 64)
    (hnd : (h.regs.map Prod.fst).Nodup)
    (hmem : (r, v) ∈ h.regs) :
    getDensePipelineRegister ((convertToDenseSt h cfg).2.drop 20) r = v := by
  have hv : v < 64 := (hreg (r, v) hmem).2
  rw [convertToDenseSt_snd, List.drop_left' (pipelinePreamble_length _ _ _ _)]
  apply Nat.eq_of_testBit_eq
  intro j
  rw [getDense_testBit]
  by_cases hj : j < 6
  · rw [decide_eq_true hj, Bool.true_and, densePayload,
      bufBit_foldl_mem h.regs _ r v j (fun rv hm2 => (hreg rv hm2).2) hnd
        (fun rv hm2 => by
          rw [List.length_replicate]
          exact dense_index_bound h.m t rv.1 hm ht (hreg rv hm2).1)
        hmem hj]
  · rw [decide_eq_false hj, Bool.false_and, testBit_of_lt_64 v j hv (by omega)]

/-- Witness for C1 at the concrete estimator: register 10 reads back as 12. -/
theorem dense_payload_roundtrip_witness :
    getDensePipelineRegister ((convertToDenseSt hWit cfgWit).2.drop 20) 10 = 12 :=
  dense_payload_roundtrip hWit cfgWit 4 10 12 (by decide) (by decide) (by decide) (by decide)
    (by decide)

/-- C7: for every register index `r < m` and value `v < 64`, both byte
positions of the two-byte dense write, `r*6/8` and `r*6/8 + 1`, are valid
indices of the `1 + m*6/8`-byte buffer allocated up front, the second
covered by the trailing guard byte. -/
theorem setDense_write_in_bounds (h : HLLPP) (t r v : Nat)
    (hm : h.m = 2 ^ t) (ht : 1 ≤ t) (hr : r < h.m) ( _hv : v < 64) :
    r * pipelineBitsPerRegister / 8 <
        (densePayload (1 + h.m * pipelineBitsPerRegister / 8) h.regs).length ∧
      r * pipelineBitsPerRegister / 8 + 1 <
        (densePayload (1 + h.m * pipelineBitsPerRegister / 8) h.regs).length := by
  have hlen : (densePayload (1 + h.m * pipelineBitsPerRegister / 8) h.regs).length =
      1 + h.m * pipelineBitsPerRegister / 8 := by
    rw [densePayload, foldl_setDense_length, List.length_replicate]
  rw [hlen]
  simp only [pipelineBitsPerRegister]
  have h2 := dense_index_bound h.m t r hm ht hr
  exact ⟨by omega, h2⟩

/-- Witness for C7 at the concrete estimator and the last register. -/
theorem setDense_write_in_bounds_witness :
    15 * pipelineBitsPerRegister / 8 <
        (densePayload (1 + hWit.m * pipelineBitsPerRegister / 8) hWit.regs).length ∧
      15 * pipelineBitsPerRegister / 8 + 1 <
        (densePayload (1 + hWit.m * pipelineBitsPerRegister / 8) hWit.regs).length :=
  setDense_write_in_bounds hWit 4 15 63 (by decide) (by decide) (by decide) (by decide)

/-- C4: a dense conversion's payload (everything after the 20-byte preamble)
has exactly `1 + ceil(m*6/8)` bytes, and the 4-byte `Mlen` field at preamble
offset 16 holds that same number. -/
theorem dense_payload_length_eq (h : HLLPP) (cfg : Config) (t : Nat)
    (hm : h.m = 2 ^ t) (ht : 2 ≤ t) :
    (convertToDenseSt h cfg).2.length = 20 + (1 + (h.m * 6 + 7) / 8) ∧
      ((convertToDenseSt h cfg).2.drop 16).take 4 = leBytes 4 (1 + (h.m * 6 + 7) / 8) := by
  obtain ⟨k, hk⟩ : 4 ∣ h.m := by
    rw [hm]
    exact dvd_trans (by norm_num : (4 : Nat) ∣ 2 ^ 2) (pow_dvd_pow 2 ht)
  have hceil : 1 + h.m * pipelineBitsPerRegister / 8 = 1 + (h.m * 6 + 7) / 8 := by
    simp only [pipelineBitsPerRegister]
    omega
  constructor
  · rw [convertToDenseSt_snd, List.length_append, pipelinePreamble_length, densePayload,
      foldl_setDense_length, List.length_replicate, hceil]
  · rw [convertToDenseSt_snd, ← hceil, pipelinePreamble]
    rw [show
      ((if cfg.writeDirtyEncoding then PipelineDenseDirty else PipelineDenseClean) % 256 ::
            0 :: 0 :: 0 ::
            (leBytes 8 h.card ++ h.p % 256 :: 0 :: 0 :: 0 ::
              leBytes 4 (1 + h.m * pipelineBitsPerRegister / 8)) ++
          densePayload (1 + h.m * pipelineBitsPerRegister / 8) h.regs) =
        ((if cfg.writeDirtyEncoding then PipelineDenseDirty else PipelineDenseClean) % 256 ::
            0 :: 0 :: 0 :: (leBytes 8 h.card ++ [h.p % 256, 0, 0, 0])) ++
          (leBytes 4 (1 + h.m * pipelineBitsPerRegister / 8) ++
            densePayload (1 + h.m * pipelineBitsPerRegister / 8) h.regs) by
      simp]
    rw [List.drop_left' (by simp [leBytes_length]), List.take_left' (leBytes_length 4 _)]

/-- Witness for C4 at the concrete estimator. -/
theorem dense_payload_length_eq_witness :
    (convertToDenseSt hWit cfgWit).2.length = 20 + (1 + (hWit.m * 6 + 7) / 8) ∧
      ((convertToDenseSt hWit cfgWit).2.drop 16).take 4 = leBytes 4 (1 + (hWit.m * 6 + 7) / 8) :=
  dense_payload_length_eq hWit cfgWit 4 (by decide) (by decide)

/-- The accumulation loop completes with exactly the traversed registers
whenever the threshold is not reached. -/
theorem collectExplicit_some (maxR : Nat) (l : List (Nat × Nat)) : ∀ acc,
    acc.length + l.length < maxR ∨ l = [] →
    collectExplicit maxR l acc = some (acc ++ l) := by
  induction l with
  | nil =>
    intro acc _
    simp [collectExplicit]
  | cons a t ih =>
    intro acc hlt
    rcases hlt with hlt | hne
    · have hlt2 : acc.length + (t.length + 1) < maxR := by simpa using hlt
      rw [collectExplicit]
      rw [if_neg (by
        simp only [List.length_append, List.length_cons, List.length_nil]
        omega)]
      rw [ih _ (Or.inl (by
        simp only [List.length_append, List.length_cons, List.length_nil]
        omega))]
      simp
    · exact (List.cons_ne_nil a t hne).elim

/-- The accumulation loop falls back as soon as the threshold is reachable
within the remaining registers. -/
theorem collectExplicit_none (maxR : Nat) (l : List (Nat × Nat)) : ∀ acc,
    l ≠ [] → maxR ≤ acc.length + l.length →
    collectExplicit maxR l acc = none := by
  induction l with
  | nil =>
    intro acc h _
    exact absurd rfl h
  | cons a t ih =>
    intro acc _ hge
    rw [collectExplicit]
    by_cases hc : maxR ≤ (acc ++ [a]).length
    · rw [if_pos hc]
    · rw [if_neg hc]
      simp only [List.length_append, List.length_cons, List.length_nil] at hc hge
      apply ih
      · intro ht
        subst ht
        simp only [List.length_nil] at hge
        omega
      · simp only [List.length_append, List.length_cons, List.length_nil]
        omega

/-- On overflow the explicit conversion is exactly a fresh dense conversion
of the same estimator. -/
theorem convertToExplicitSt_of_overflow (h : HLLPP) (cfg : Config)
    (hne : h.regs ≠ []) (hge : cfg.maxExplicitRegisters ≤ h.regs.length) :
    convertToExplicitSt h cfg = convertToDenseSt h cfg := by
  simp only [convertToExplicitSt, flushTmpSet, ite_self,
    collectExplicit_none cfg.maxExplicitRegisters h.regs [] hne (by simpa using hge)]

/-- C3: a sparse-backed estimator whose traversal yields more than
`maxExplicitRegisters` registers is converted by abandoning the explicit
attempt and producing exactly the fresh, independent dense conversion of
the same estimator. -/
theorem explicit_overflow_fresh_dense (h : HLLPP) (cfg : Config)
    (hs : h.sparse = true) (hc : cfg.maxExplicitRegisters < h.regs.length) :
    convertToExplicitSt h cfg = convertToDenseSt h cfg ∧
      AsPipelineSt h cfg = convertToDenseSt h cfg := by
  have hne : h.regs ≠ [] := by
    intro hnil
    rw [hnil] at hc
    simp at hc
  have heq := convertToExplicitSt_of_overflow h cfg hne (Nat.le_of_lt hc)
  refine ⟨heq, ?_⟩
  rw [AsPipelineSt, hs]
  by_cases ha : cfg.alwaysWriteDense <;> simp [ha, heq]

/-- Concrete configuration with a tiny explicit threshold, for the overflow
witness. -/
def cfgSmallMax : Config :=
  { alwaysWriteDense := false, writeDirtyEncoding := false, maxExplicitRegisters := 1 }

/-- Witness for C3: two registers against a threshold of one. -/
theorem explicit_overflow_fresh_dense_witness :
    convertToExplicitSt hWit cfgSmallMax = convertToDenseSt hWit cfgSmallMax ∧
      AsPipelineSt hWit cfgSmallMax = convertToDenseSt hWit cfgSmallMax :=
  explicit_overflow_fresh_dense hWit cfgSmallMax (by decide) (by decide)

/-- C10: with the shipped threshold the fallback already triggers at exactly
`maxExplicitRegisters` accumulated registers, and strictly fewer registers
yield the explicit encoding of the sorted register list. -/
theorem explicit_threshold_exact (h : HLLPP) (cfg : Config)
    (hmax : cfg.maxExplicitRegisters = maxExplicitRegisters) :
    (maxExplicitRegisters ≤ h.regs.length →
        convertToExplicitSt h cfg = convertToDenseSt h cfg) ∧
      (h.regs.length < maxExplicitRegisters →
        convertToExplicitSt h cfg =
          (h, pipelinePreamble
              (if cfg.writeDirtyEncoding then PipelineExplicitDirty else PipelineExplicitClean)
              h.card h.p ((explicitPayload (sortRegisters h.regs)).length % 2 ^ 32) ++
            explicitPayload (sortRegisters h.regs))) := by
  constructor
  · intro hge
    apply convertToExplicitSt_of_overflow h cfg
    · intro hnil
      rw [hnil] at hge
      rw [maxExplicitRegisters] at hge
      simp at hge
    · rw [hmax]
      exact hge
  · intro hlt
    simp only [convertToExplicitSt, flushTmpSet, ite_self,
      collectExplicit_some cfg.maxExplicitRegisters h.regs []
        (Or.inl (by simp only [List.length_nil]; omega)),
      List.nil_append]

/-- Witness for C10: two registers, threshold 600, explicit encoding. -/
theorem explicit_threshold_exact_witness :
    convertToExplicitSt hWit cfgWit =
      (hWit, pipelinePreamble
          (if cfgWit.writeDirtyEncoding then PipelineExplicitDirty else PipelineExplicitClean)
          hWit.card hWit.p ((explicitPayload (sortRegisters hWit.regs)).length % 2 ^ 32) ++
        explicitPayload (sortRegisters hWit.regs)) :=
  (explicit_threshold_exact hWit cfgWit rfl).2 (by decide)

/-- C9: the conversion leaves the estimator state unchanged and a second
call on the returned state produces the same byte sequence. -/
theorem asPipeline_pure (h : HLLPP) (cfg : Config) :
    (AsPipelineSt h cfg).1 = h ∧
      (AsPipelineSt (AsPipelineSt h cfg).1 cfg).2 = (AsPipelineSt h cfg).2 := by
  have h1 : (AsPipelineSt h cfg).1 = h := by
    rw [AsPipelineSt]
    by_cases hd : (!h.sparse || cfg.alwaysWriteDense) = true
    · rw [if_pos hd]
      rfl
    · rw [if_neg hd]
      simp only [convertToExplicitSt, flushTmpSet, ite_self]
      cases hcol : collectExplicit cfg.maxExplicitRegisters h.regs [] with
      | none => rfl
      | some rs => rfl
  exact ⟨h1, by rw [h1]⟩

/-- Shape of a preamble followed by a payload, with the byte casts of tag
and precision discharged. -/
theorem preamble_shape (enc card p0 mlen : Nat) (pay : List Nat)
    (henc : enc < 256) (hp : p0 < 256) :
    pipelinePreamble enc card p0 mlen ++ pay =
      enc :: 0 :: 0 :: 0 ::
        (leBytes 8 card ++ p0 :: 0 :: 0 :: 0 :: (leBytes 4 mlen ++ pay)) := by
  rw [pipelinePreamble, Nat.mod_eq_of_lt henc, Nat.mod_eq_of_lt hp]
  simp

/-- C5: every conversion output opens with the exact 20-byte preamble: one
tag byte drawn from the four dense and explicit tag constants per the dirty
flag, three zero padding bytes, the 8-byte little-endian cardinality
`Count()`, the precision byte, three zero padding bytes, and the 4-byte
little-endian payload length field. -/
theorem preamble_layout (h : HLLPP) (cfg : Config) (hp : h.p < 256) :
    ∃ tag mlen payload,
      (AsPipelineSt h cfg).2 =
          tag :: 0 :: 0 :: 0 ::
            (leBytes 8 h.card ++ h.p :: 0 :: 0 :: 0 :: (leBytes 4 mlen ++ payload)) ∧
        (leBytes 8 h.card).length = 8 ∧ (leBytes 4 mlen).length = 4 ∧
        (tag = PipelineDenseClean ∨ tag = PipelineDenseDirty ∨
          tag = PipelineExplicitClean ∨ tag = PipelineExplicitDirty) := by
  have htag1 : (if cfg.writeDirtyEncoding then PipelineDenseDirty else PipelineDenseClean) < 256 := by
    by_cases hd : cfg.writeDirtyEncoding <;>
      simp [hd, PipelineDenseDirty, PipelineDenseClean]
  have htag2 :
      (if cfg.writeDirtyEncoding then PipelineExplicitDirty else PipelineExplicitClean) < 256 := by
    by_cases hd : cfg.writeDirtyEncoding <;>
      simp [hd, PipelineExplicitDirty, PipelineExplicitClean]
  have hdense : ∀ h' : HLLPP, h'.p < 256 →
      ∃ tag mlen payload,
        (convertToDenseSt h' cfg).2 =
            tag :: 0 :: 0 :: 0 ::
              (leBytes 8 h'.card ++ h'.p :: 0 :: 0 :: 0 :: (leBytes 4 mlen ++ payload)) ∧
          (leBytes 8 h'.card).length = 8 ∧ (leBytes 4 mlen).length = 4 ∧
          (tag = PipelineDenseClean ∨ tag = PipelineDenseDirty ∨
            tag = PipelineExplicitClean ∨ tag = PipelineExplicitDirty) := by
    intro h' hp'
    refine ⟨if cfg.writeDirtyEncoding then PipelineDenseDirty else PipelineDenseClean,
      1 + h'.m * pipelineBitsPerRegister / 8,
      densePayload (1 + h'.m * pipelineBitsPerRegister / 8) h'.regs, ?_,
      leBytes_length _ _, leBytes_length _ _, ?_⟩
    · rw [convertToDenseSt_snd, preamble_shape _ _ _ _ _ htag1 hp']
    · by_cases hd : cfg.writeDirtyEncoding <;> simp [hd]
  rw [AsPipelineSt]
  by_cases hmode : (!h.sparse || cfg.alwaysWriteDense) = true
  · rw [if_pos hmode]
    exact hdense h hp
  · rw [if_neg hmode]
    simp only [convertToExplicitSt, flushTmpSet, ite_self]
    cases hcol : collectExplicit cfg.maxExplicitRegisters h.regs [] with
    | none => exact hdense h hp
    | some rs =>
      refine ⟨if cfg.writeDirtyEncoding then PipelineExplicitDirty else PipelineExplicitClean,
        (explicitPayload (sortRegisters rs)).length % 2 ^ 32,
        explicitPayload (sortRegisters rs), ?_,
        leBytes_length _ _, leBytes_length _ _, ?_⟩
      · exact preamble_shape _ _ _ _ _ htag2 hp
      · by_cases hd : cfg.writeDirtyEncoding <;> simp [hd]

/-- Witness for C5 at the concrete estimator. -/
theorem preamble_layout_witness :
    ∃ tag mlen payload,
      (AsPipelineSt hWit cfgWit).2 =
          tag :: 0 :: 0 :: 0 ::
            (leBytes 8 hWit.card ++ hWit.p :: 0 :: 0 :: 0 :: (leBytes 4 mlen ++ payload)) ∧
        (leBytes 8 hWit.card).length = 8 ∧ (leBytes 4 mlen).length = 4 ∧
        (tag = PipelineDenseClean ∨ tag = PipelineDenseDirty ∨
          tag = PipelineExplicitClean ∨ tag = PipelineExplicitDirty) :=
  preamble_layout hWit cfgWit (by decide)

theorem explicitPayload_length (l : List (Nat × Nat)) :
    (explicitPayload l).length = 4 * l.length := by
  induction l with
  | nil => rfl
  | cons a t ih =>
    rw [explicitPayload, List.flatMap_cons, List.length_append, leBytes_length]
    rw [explicitPayload] at ih
    rw [ih, List.length_cons]
    omega

/-- Low byte of a packed explicit word: the value masked to eight bits. -/
theorem packExplicitWord_mod256 (reg val : Nat) :
    packExplicitWord reg val % 256 = val % 256 := by
  apply Nat.eq_of_testBit_eq
  intro i
  rw [packExplicitWord, testBit_mod256, testBit_mod256, Nat.testBit_or,
    Nat.testBit_mod_two_pow, Nat.testBit_shiftLeft, Nat.testBit_and,
    show (255 : Nat) = 2 ^ 8 - 1 from rfl, Nat.testBit_two_pow_sub_one]
  by_cases hi : i < 8
  · rw [decide_eq_true hi, decide_eq_false (show ¬i ≥ 8 by omega),
      decide_eq_true (show i < 32 by omega)]
    simp
  · rw [decide_eq_false hi]
    simp

/-- C6: an explicit conversion's payload after the 20-byte preamble is one
4-byte little-endian packed word per accumulated register, sorted strictly
ascending by index with no duplicates, each word `(index << 8) | (value &
0xFF)` with the value masked into the low byte, and the payload occupies
exactly 4 bytes per register. -/
theorem explicit_payload_structure (h : HLLPP) (cfg : Config)
    (hnd : (h.regs.map Prod.fst).Nodup)
    (hidx : ∀ rv ∈ h.regs, rv.1 < 2 ^ 24)
    (hlen : h.regs.length < cfg.maxExplicitRegisters) :
    ∃ sorted : List (Nat × Nat),
      sorted.Perm h.regs ∧
        List.Chain' (fun a b : Nat × Nat => a.1 < b.1) sorted ∧
        (convertToExplicitSt h cfg).2.drop 20 = explicitPayload sorted ∧
        (∀ rv ∈ sorted, packExplicitWord rv.1 rv.2 = rv.1 <<< 8 ||| rv.2 &&& 255) ∧
        (∀ rv ∈ sorted, packExplicitWord rv.1 rv.2 % 256 = rv.2 % 256) ∧
        ((convertToExplicitSt h cfg).2.drop 20).length = 4 * h.regs.length := by
  haveI : IsTotal (Nat × Nat) (fun a b => a.1 ≤ b.1) := ⟨fun a b => Nat.le_total a.1 b.1⟩
  haveI : IsTrans (Nat × Nat) (fun a b => a.1 ≤ b.1) :=
    ⟨fun _ _ _ hab hbc => Nat.le_trans hab hbc⟩
  have hperm : (sortRegisters h.regs).Perm h.regs := List.perm_insertionSort _ _
  have hsorted : List.Pairwise (fun a b : Nat × Nat => a.1 ≤ b.1) (sortRegisters h.regs) :=
    List.sorted_insertionSort _ _
  have hndS : ((sortRegisters h.regs).map Prod.fst).Nodup :=
    ((hperm.map Prod.fst).symm).nodup hnd
  have hneS : List.Pairwise (fun a b : Nat × Nat => a.1 ≠ b.1) (sortRegisters h.regs) :=
    List.pairwise_map.mp hndS
  have hlt : List.Pairwise (fun a b : Nat × Nat => a.1 < b.1) (sortRegisters h.regs) :=
    (hsorted.and hneS).imp fun hab => Nat.lt_of_le_of_ne hab.1 hab.2
  have hbytes : (convertToExplicitSt h cfg).2.drop 20 =
      explicitPayload (sortRegisters h.regs) := by
    simp only [convertToExplicitSt, flushTmpSet, ite_self,
      collectExplicit_some cfg.maxExplicitRegisters h.regs []
        (Or.inl (by simp only [List.length_nil]; omega)),
      List.nil_append]
    exact List.drop_left' (pipelinePreamble_length _ _ _ _)
  refine ⟨sortRegisters h.regs, hperm, hlt.chain', hbytes, ?_, ?_, ?_⟩
  · intro rv hm
    have hr : rv.1 < 2 ^ 24 := hidx rv (hperm.mem_iff.mp hm)
    rw [packExplicitWord, Nat.mod_eq_of_lt (by rw [Nat.shiftLeft_eq]; omega)]
  · intro rv _
    exact packExplicitWord_mod256 rv.1 rv.2
  · rw [hbytes, explicitPayload_length, hperm.length_eq]

/-- Witness for C6 at the concrete estimator. -/
theorem explicit_payload_structure_witness :
    ∃ sorted : List (Nat × Nat),
      sorted.Perm hWit.regs ∧
        List.Chain' (fun a b : Nat × Nat => a.1 < b.1) sorted ∧
        (convertToExplicitSt hWit cfgWit).2.drop 20 = explicitPayload sorted ∧
        (∀ rv ∈ sorted, packExplicitWord rv.1 rv.2 = rv.1 <<< 8 ||| rv.2 &&& 255) ∧
        (∀ rv ∈ sorted, packExplicitWord rv.1 rv.2 % 256 = rv.2 % 256) ∧
        ((convertToExplicitSt hWit cfgWit).2.drop 20).length = 4 * hWit.regs.length :=
  explicit_payload_structure hWit cfgWit (by decide) (by decide) (by decide)

/-- Concrete sparse estimator for the historical tag defect. -/
def hHist : HLLPP :=
  { card := 1, p := 4, m := 16, sparse := true, sparseLength := 1, regs := [(3, 5)] }

/-- C2: the historical revision of `AsPipeline`, on its explicit branch with
the dirty flag off, emits the dense-clean tag in front of an explicit
payload, so the tag does not match the mode actually written. -/
theorem hist_tag_mismatch :
    asPipelineHist hHist false false =
        pipelinePreamble PipelineDenseClean hHist.card hHist.p 4 ++
          explicitPayload hHist.regs ∧
      PipelineDenseClean ≠ PipelineExplicitClean ∧
      PipelineDenseClean ≠ PipelineExplicitDirty := by
  refine ⟨?_, by decide, by decide⟩
  decide

/-- Modelled from the spec: the outcome of one write call on the output
sink.  The sink the Go code writes to is a stdlib `bytes.Buffer`, outside
this repository; the spec's failure kinds are WriteFailure (the sink rejects
a write) and ShortWriteFailure (the sink accepts fewer bytes than
requested), so a sink is modelled as a schedule giving, for the i-th write
call a conversion makes, how many bytes the sink accepts and whether it
reports an error. -/
structure SinkStep where
  accept : Nat
  fail : Bool
  deriving Repr, DecidableEq

/-- Modelled from the spec: a write schedule, one outcome per write call. -/
def Sink : Type := Nat → SinkStep

/-- Write-failure model of `convertToDense`: the preamble `binary.Write`
aborts with nil bytes on a reported error; the final `ret.Write(data)`
feeds `return ret.Bytes(), err`, returning the buffer contents together
with whatever the write reported. -/
def convertToDenseF (h : HLLPP) (cfg : Config) (sink : Sink) : List Nat × Bool :=
  let mlen := 1 + h.m * pipelineBitsPerRegister / 8
  let enc := if cfg.writeDirtyEncoding then PipelineDenseDirty else PipelineDenseClean
  let pre := pipelinePreamble enc h.card h.p mlen
  let s0 := sink 0
  if s0.fail then ([], true)
  else
    let s1 := sink 1
    (pre.take s0.accept ++ (densePayload mlen h.regs).take s1.accept, s1.fail)

/-- Write-failure model of the per-register `binary.Write` loop into
`regBuf`: abort on the first reported error, otherwise append the accepted
bytes of each packed word and return the buffer with the next call index. -/
def writeWordsF (sink : Sink) : Nat → List Nat → List (Nat × Nat) → Option (List Nat × Nat)
  | i, buf, [] => some (buf, i)
  | i, buf, rv :: rest =>
    let s := sink i
    if s.fail then none
    else writeWordsF sink (i + 1)
      (buf ++ (leBytes 4 (packExplicitWord rv.1 rv.2)).take s.accept) rest

/-- Write-failure model of `convertToExplicit`: every checked failure path
returns nil bytes with the error, and the final copy of `regBuf` into the
output also fails when the sink accepts fewer bytes than `regBuf.Len()`
(the short-write check). -/
def convertToExplicitF (h : HLLPP) (cfg : Config) (sink : Sink) : List Nat × Bool :=
  let h1 := if h.sparse then flushTmpSet h else h
  match collectExplicit cfg.maxExplicitRegisters h1.regs [] with
  | none => convertToDenseF h1 cfg sink
  | some registers =>
    match writeWordsF sink 0 [] (sortRegisters registers) with
    | none => ([], true)
    | some (regBuf, i) =>
      let enc := if cfg.writeDirtyEncoding then PipelineExplicitDirty else PipelineExplicitClean
      let pre := pipelinePreamble enc h1.card h1.p (regBuf.length % 2 ^ 32)
      let si := sink i
      if si.fail then ([], true)
      else
        let sj := sink (i + 1)
        if sj.fail then ([], true)
        else if min sj.accept regBuf.length ≠ regBuf.length then ([], true)
        else (pre.take si.accept ++ regBuf.take sj.accept, false)

/-- Sink that accepts the preamble and then fails the payload write. -/
def sinkFailPayload : Sink := fun i => if i = 0 then ⟨32, false⟩ else ⟨0, true⟩

/-- C8 counterexample: when the sink fails the dense payload write, the
conversion reports the failure but returns the accumulated preamble bytes
alongside it rather than no bytes. -/
theorem dense_write_failure_leaks :
    (convertToDenseF hWit cfgWit sinkFailPayload).2 = true ∧
      (convertToDenseF hWit cfgWit sinkFailPayload).1 ≠ [] := by
  constructor <;> decide

/-- The word-write loop aborts as soon as any of the calls it makes reports
a failure. -/
theorem writeWordsF_none_of_fail (sink : Sink) (l : List (Nat × Nat)) : ∀ i buf,
    (∃ k, i ≤ k ∧ k < i + l.length ∧ (sink k).fail = true) →
    writeWordsF sink i buf l = none := by
  induction l with
  | nil =>
    intro i buf hex
    obtain ⟨k, h1, h2, _⟩ := hex
    simp only [List.length_nil] at h2
    omega
  | cons a t ih =>
    intro i buf hex
    obtain ⟨k, h1, h2, hf⟩ := hex
    rw [writeWordsF]
    by_cases hfi : (sink i).fail = true
    · rw [if_pos hfi]
    · rw [if_neg hfi]
      apply ih
      refine ⟨k, ?_, ?_, hf⟩
      · rcases Nat.eq_or_lt_of_le h1 with heq | hlt
        · exact absurd (heq ▸ hf) hfi
        · omega
      · simp only [List.length_cons] at h2
        omega

/-- C8 amended: on any reported write failure the conversion aborts and
returns a failure, and a short write (the sink accepting fewer bytes than
requested) is fatal for that call and reported as a failure, never retried:
on the dense path either write, short-writing under the io.Writer contract
(a short write comes with an error), makes the call fail; on the explicit
path a short-writing word write likewise aborts the loop, and the final
copy of `regBuf` is checked directly, so even a short write the sink does
not accompany with an error is fatal there.  The failure carries no output
bytes on every explicit path and on the dense preamble write; the dense
path's final payload write, however, returns the accumulated bytes
alongside the error. -/
theorem write_failure_behavior (h : HLLPP) (cfg : Config) (sink : Sink) :
    ((sink 0).fail = true → convertToDenseF h cfg sink = ([], true)) ∧
      ((sink 0).fail = false → (convertToDenseF h cfg sink).2 = (sink 1).fail) ∧
      (∀ registers,
        collectExplicit cfg.maxExplicitRegisters
            (if h.sparse then flushTmpSet h else h).regs [] = some registers →
          ((convertToExplicitF h cfg sink).2 = true → (convertToExplicitF h cfg sink).1 = []) ∧
            (writeWordsF sink 0 [] (sortRegisters registers) = none →
              convertToExplicitF h cfg sink = ([], true)) ∧
            ((∀ k, k < (sortRegisters registers).length → (sink k).accept < 4 →
                (sink k).fail = true) →
              (∃ k0, k0 < (sortRegisters registers).length ∧ (sink k0).accept < 4) →
              convertToExplicitF h cfg sink = ([], true)) ∧
            (∀ buf i, writeWordsF sink 0 [] (sortRegisters registers) = some (buf, i) →
              (((sink i).fail = true ∨ (sink (i + 1)).fail = true) →
                convertToExplicitF h cfg sink = ([], true)) ∧
                ((sink i).fail = false → (sink (i + 1)).fail = false →
                  (sink (i + 1)).accept < buf.length →
                  convertToExplicitF h cfg sink = ([], true)))) ∧
      (((sink 0).accept < 20 → (sink 0).fail = true) →
        ((sink 1).accept < 1 + h.m * pipelineBitsPerRegister / 8 → (sink 1).fail = true) →
        ((sink 0).accept < 20 ∨ (sink 1).accept < 1 + h.m * pipelineBitsPerRegister / 8) →
        (convertToDenseF h cfg sink).2 = true) := by
  refine ⟨fun hf => by simp [convertToDenseF, hf], fun hf => by simp [convertToDenseF, hf],
    ?_, ?_⟩
  · intro rs hcol
    refine ⟨?_, ?_, ?_, ?_⟩
    · intro htrue
      simp only [convertToExplicitF, hcol] at htrue ⊢
      cases hww : writeWordsF sink 0 [] (sortRegisters rs) with
      | none => simp [hww]
      | some bi =>
        obtain ⟨buf, i⟩ := bi
        rw [hww] at htrue
        dsimp only at htrue ⊢
        by_cases h1 : (sink i).fail = true
        · rw [if_pos h1]
        · rw [if_neg h1] at htrue ⊢
          by_cases h2 : (sink (i + 1)).fail = true
          · rw [if_pos h2]
          · rw [if_neg h2] at htrue ⊢
            by_cases h3 : min (sink (i + 1)).accept buf.length ≠ buf.length
            · rw [if_pos h3]
            · rw [if_neg h3] at htrue
              exact absurd htrue (by simp)
    · intro hww
      simp only [convertToExplicitF, hcol, hww]
    · intro hcontract hex
      obtain ⟨k0, hk0, hacc⟩ := hex
      have hnone : writeWordsF sink 0 [] (sortRegisters rs) = none :=
        writeWordsF_none_of_fail sink (sortRegisters rs) 0 []
          ⟨k0, Nat.zero_le k0, by omega, hcontract k0 hk0 hacc⟩
      simp only [convertToExplicitF, hcol, hnone]
    · intro buf i hww
      constructor
      · intro hfl
        simp only [convertToExplicitF, hcol, hww]
        by_cases hfi : (sink i).fail = true
        · rw [if_pos hfi]
        · rw [if_neg hfi]
          rcases hfl with hfl | hfl
          · exact absurd hfl hfi
          · rw [if_pos hfl]
      · intro hfi hfj hshort
        simp only [convertToExplicitF, hcol, hww]
        rw [if_neg (by simp [hfi]), if_neg (by simp [hfj]), if_pos (by
          rw [Nat.min_eq_left (Nat.le_of_lt hshort)]
          omega)]
  · intro hc0 hc1 hor
    by_cases hf0 : (sink 0).fail = true
    · simp [convertToDenseF, hf0]
    · rcases hor with h20 | hmlen
      · exact absurd (hc0 h20) hf0
      · simp [convertToDenseF, hf0, hc1 hmlen]

/-- Sink whose first write already fails. -/
def sinkFailFirst : Sink := fun _ => ⟨0, true⟩

/-- Sink that accepts the word writes and the preamble in full but accepts
only five of the eight bytes of the final `regBuf` copy, reporting no
error: an unreported short write. -/
def sinkShortFinal : Sink := fun i => if i < 3 then ⟨20, false⟩ else ⟨5, false⟩

/-- Witness for the amended C8 behavior: a failing first write aborts the
dense conversion with no bytes, and an unreported short write on the final
copy aborts the explicit conversion of the concrete estimator with no
bytes. -/
theorem write_failure_behavior_witness :
    convertToDenseF hWit cfgWit sinkFailFirst = ([], true) ∧
      convertToExplicitF hWit cfgWit sinkShortFinal = ([], true) :=
  ⟨(write_failure_behavior hWit cfgWit sinkFailFirst).1 rfl,
    ((((write_failure_behavior hWit cfgWit sinkShortFinal).2.2.1 hWit.regs
          (by decide)).2.2.2) (explicitPayload (sortRegisters hWit.regs)) 2
        (by decide)).2 rfl rfl (by decide)⟩

end Hllpp
